import Mathlib

/-!
# Verification of the LearningThreeMap conversation-graph engine

This file gives a shallow embedding, in Lean 4, of the algorithmic core of the
LearningThreeMap repository and proves (or refutes) the frozen claims about it:

* the conversation-graph database layer (`listMessagesForNodeAncestors`,
  `deleteNodeSubtreeRespectingJoins`, `editUserNodeContent`; the backend
  store module in the sources),
* the node-placement module (`findFreePositionAABB`, `findPositionSpiral`,
  `rectsCollide`),
* the context-span serializer and the highlight locator of the `QaNode`
  component (`serializeContent` and the exact/whitespace-normalized match),
* the AI boundary (`callGeminiAPI`, `generateAIResponse`).

Modelling conventions:

* TypeScript strings are `String`; where character-offset arithmetic matters
  (serializer, locator) text is modelled as `List Char`, one entry per UTF-16
  unit of the inputs considered.
* SQL rows are Lean structures; a table is a `List` of rows kept in insertion
  order (SQLite returns rows in table order for unordered `SELECT`s, and the
  embedding only relies on this for `ORDER BY`-free reads, exactly like the
  source).
* `created_at` ISO-8601 timestamp strings compare lexicographically exactly in
  chronological order, so they are modelled as `Nat` instants; the SQL
  `ORDER BY created_at ASC` is modelled as a stable insertion sort by that key.
* JavaScript truthiness checks on `string | null` fields (`if (x)`) are
  modelled by `truthyStr` (`null` and `""` are falsy).
* The `while (stack.length)` loops of the two graph traversals terminate
  because every iteration either drops an already-visited stack entry or
  marks a fresh node visited; the embedding makes this explicit with a fuel
  parameter that provably dominates the number of iterations, so the
  embedded functions are structurally recursive and kernel-computable.
-/

/-! ## Data model (backend store module)

The row shapes follow the `GraphNode`/`GraphEdge`/`Message` types of the
backend store module.  The node field called `type` in TypeScript keeps its
name via the escaped identifier `«type»`. -/

structure GraphNode where
  id : String
  conversation_id : String
  message_id : Option String
  «type» : String
  label : String
  created_at : Nat
  pos_x : Option ℚ
  pos_y : Option ℚ
deriving DecidableEq

structure GraphEdge where
  id : String
  conversation_id : String
  source : String
  target : String
  created_at : Nat
deriving DecidableEq

structure Message where
  id : String
  conversation_id : String
  author : String
  content : String
  created_at : Nat
deriving DecidableEq

/-- The relational store visible to the graph engine: the `messages`, `nodes`
and `edges` tables. -/
structure Db where
  messages : List Message
  nodes : List GraphNode
  edges : List GraphEdge
deriving DecidableEq

/-- JavaScript truthiness of a `string | null` value: `null` and the empty
string are falsy.  Used for `if (node?.message_id)` style checks. -/
def truthyStr : Option String → Option String
  | some s => if s = "" then none else some s
  | none => none

/-- `SELECT ... FROM nodes WHERE conversation_id = ?` in table order. -/
def convNodes (db : Db) (conversationId : String) : List GraphNode :=
  db.nodes.filter fun n => n.conversation_id == conversationId

/-- `SELECT ... FROM edges WHERE conversation_id = ?` in table order. -/
def convEdges (db : Db) (conversationId : String) : List GraphEdge :=
  db.edges.filter fun e => e.conversation_id == conversationId

/-- The JS code builds `nodeById` with `Map.set` over the node list, so a
duplicated id resolves to the last row; lookup is `find?` on the reversed
list. -/
def nodeById (nodes : List GraphNode) (nodeId : String) : Option GraphNode :=
  nodes.reverse.find? fun n => n.id == nodeId

/-- The reverse adjacency (`incoming`) map of `listMessagesForNodeAncestors`:
sources of all edges pointing at `nodeId`, in edge-table order. -/
def parentsOf (edges : List GraphEdge) (nodeId : String) : List String :=
  (edges.filter fun e => e.target == nodeId).map fun e => e.source

/-- The forward adjacency (`outgoing`) map of
`deleteNodeSubtreeRespectingJoins`: targets of all edges leaving `nodeId`,
in edge-table order. -/
def childrenOf (edges : List GraphEdge) (nodeId : String) : List String :=
  (edges.filter fun e => e.source == nodeId).map fun e => e.target

/-- The `incomingCount` map of `deleteNodeSubtreeRespectingJoins`: number of
edges whose target is `nodeId` (`?? 0` when absent). -/
def incomingCount (edges : List GraphEdge) (nodeId : String) : Nat :=
  (edges.filter fun e => e.target == nodeId).length

/-! ## The shared stack traversal

Both `listMessagesForNodeAncestors` and `deleteNodeSubtreeRespectingJoins`
run the same explicit-stack loop:

```
while (stack.length) {
  const current = stack.pop()
  if (visited.has(current)) continue
  visited.add(current)
  for (const c of next(current)) { if (keep(c) && !visited.has(c)) stack.push(c) }
}
```

(The deletion loop tests `indegree > 1` with `continue`, i.e. `keep c =
(indegree c ≤ 1)`; the ancestor loop keeps every parent.)  JS `push`/`pop`
work at the array end, so the stack is modelled as a list whose head is the
array end: `pop` is head removal and pushing the children in loop order means
prepending their reversal.  The `visited` insertion-ordered set is a list,
consed on visit and reversed by the callers to recover visit order. -/

def graphTraverseFuel (next : String → List String) (keep : String → Bool) :
    Nat → List String → List String → List String
  | 0, _, visited => visited
  | _ + 1, [], visited => visited
  | fuel + 1, current :: rest, visited =>
    if current ∈ visited then
      graphTraverseFuel next keep fuel rest visited
    else
      graphTraverseFuel next keep fuel
        (((next current).filter fun c =>
            keep c && decide (c ∉ current :: visited)).reverse ++ rest)
        (current :: visited)

/-- The loop-iteration bound: pending stack entries plus, for every node not
yet visited that could still be pushed (`univ` is any list closed under
`next`-images, plus the current stack), the number of children it would push.
Each loop iteration strictly decreases this quantity. -/
def traverseMeasure (next : String → List String) (univ : List String)
    (stack visited : List String) : Nat :=
  stack.length +
    (((univ.toFinset ∪ stack.toFinset) \ visited.toFinset).sum fun v => (next v).length)

/-- One traversal step: `v` is a `next`-successor of `u` that passes the
`keep` test (for the ancestor walk `keep` is constantly true; for the
deletion walk it is the in-degree test). -/
def stepRel (next : String → List String) (keep : String → Bool) (u v : String) : Prop :=
  v ∈ next u ∧ keep v = true

/-- Reachability along traversal steps. -/
def stepReach (next : String → List String) (keep : String → Bool) (u v : String) : Prop :=
  Relation.ReflTransGen (stepRel next keep) u v

/-! ## `listMessagesForNodeAncestors` (AncestorResolver) -/

/-- The iterative DFS of `listMessagesForNodeAncestors`, lines "const visited
= new Set()" through the end of the while loop, producing `ancestorNodeIds`
in visit order.  The initial JS stack is `[...fromNodeIds]` popped from the
array end, hence `fromNodeIds.reverse` in the head-is-top model; the fuel
`fromNodeIds.length + edges.length + 1` strictly dominates the iteration
count (each iteration pops one entry; at most `edges.length` entries are
ever pushed beyond the seeds, because each edge is pushed at most once). -/
def ancestorVisit (edges : List GraphEdge) (fromNodeIds : List String) : List String :=
  (graphTraverseFuel (parentsOf edges) (fun _ => true)
    (fromNodeIds.length + edges.length + 1) fromNodeIds.reverse []).reverse

/-- Backward reachability through the reverse adjacency map: `x` is an
ancestor of (or equal to) `s`. -/
def ancestorReach (edges : List GraphEdge) (s x : String) : Prop :=
  Relation.ReflTransGen (fun u v => v ∈ parentsOf edges u) s x

/-- The `messageIds` collection loop of `listMessagesForNodeAncestors`:
for each visited node id, in visit order, look the node up in the id map and
take its `message_id` when truthy. -/
def ancestorMessageIds (db : Db) (conversationId : String)
    (fromNodeIds : List String) : List String :=
  (ancestorVisit (convEdges db conversationId) fromNodeIds).filterMap fun nid =>
    (nodeById (convNodes db conversationId) nid).bind fun n => truthyStr n.message_id

/-- Message ordering key used by the SQL `ORDER BY created_at ASC`. -/
def msgLE (a b : Message) : Prop := a.created_at ≤ b.created_at

instance : DecidableRel msgLE := fun a b => inferInstanceAs (Decidable (a.created_at ≤ b.created_at))

instance : IsTotal Message msgLE := ⟨fun a b => Nat.le_total a.created_at b.created_at⟩

instance : IsTrans Message msgLE := ⟨fun _ _ _ h h2 => Nat.le_trans h h2⟩

/-- The final `SELECT ... WHERE conversation_id = ? AND id IN (...) ORDER BY
created_at ASC` of `listMessagesForNodeAncestors`: the matching message rows
sorted chronologically (a stable sort of the table order). -/
def ancestorChronological (db : Db) (conversationId : String)
    (fromNodeIds : List String) : List Message :=
  List.insertionSort msgLE (db.messages.filter fun m =>
    m.conversation_id == conversationId &&
      decide (m.id ∈ ancestorMessageIds db conversationId fromNodeIds))

/-- `listMessagesForNodeAncestors(db, conversationId, fromNodeIds, limit)`
from the backend store module: early-outs for no seeds / no nodes / no
visited nodes / no message ids, then the chronological list truncated to its
most recent `limit` entries (`results.slice(results.length - limit)`). -/
def listMessagesForNodeAncestors (db : Db) (conversationId : String)
    (fromNodeIds : List String) (limit : Nat) : List Message :=
  if fromNodeIds = [] then []
  else if convNodes db conversationId = [] then []
  else if ancestorVisit (convEdges db conversationId) fromNodeIds = [] then []
  else if ancestorMessageIds db conversationId fromNodeIds = [] then []
  else
    let results := ancestorChronological db conversationId fromNodeIds
    if results.length ≤ limit then results
    else results.drop (results.length - limit)

/-! ## `deleteNodeSubtreeRespectingJoins` (SubtreeDeletion) -/

/-- The deletion DFS of `deleteNodeSubtreeRespectingJoins`: starting from the
root, descend into a child only when its in-degree is at most 1 (the code
skips children with `indegree > 1`), producing `deletedNodeIds` in visit
order (`Array.from(toDelete)` iterates a JS `Set` in insertion order). -/
def deleteVisit (edges : List GraphEdge) (rootNodeId : String) : List String :=
  (graphTraverseFuel (childrenOf edges) (fun c => decide (incomingCount edges c ≤ 1))
    (edges.length + 2) [rootNodeId] []).reverse

/-- Forward reachability from the deletion root along children whose
in-degree (in the whole pre-deletion conversation graph) is at most 1. -/
def deleteReach (edges : List GraphEdge) (root x : String) : Prop :=
  Relation.ReflTransGen
    (fun u v => v ∈ childrenOf edges u ∧ incomingCount edges v ≤ 1) root x

/-- `deleteNodeSubtreeRespectingJoins(db, conversationId, rootNodeId)` from
the backend store module.  Returns the `deletedNodeIds` and the store after
the two `DELETE` statements (messages of deleted nodes, then the node rows;
edges are left to the persistence collaborator's cascade, exactly as in the
source, which issues no edge deletion here). -/
def deleteNodeSubtreeRespectingJoins (db : Db) (conversationId rootNodeId : String) :
    List String × Db :=
  let nodes := convNodes db conversationId
  let edges := convEdges db conversationId
  if nodes = [] then ([], db)
  else if rootNodeId ∉ nodes.map fun n => n.id then ([], db)
  else
    let deletedNodeIds := deleteVisit edges rootNodeId
    if deletedNodeIds = [] then ([], db)
    else
      let messageIds := deletedNodeIds.filterMap fun nid =>
        (nodeById nodes nid).bind fun n => truthyStr n.message_id
      let dbAfterMessages :=
        if messageIds = [] then db
        else { db with messages := db.messages.filter fun m =>
          !(m.conversation_id == conversationId && decide (m.id ∈ messageIds)) }
      let dbAfterNodes := { dbAfterMessages with
        nodes := dbAfterMessages.nodes.filter fun n =>
          !(n.conversation_id == conversationId && decide (n.id ∈ deletedNodeIds)) }
      (deletedNodeIds, dbAfterNodes)

/-! ## `editUserNodeContent` (EditNode) -/

/-- `editUserNodeContent(db, conversationId, nodeId, newContent)` from the
backend store module.  The thrown `Error('Node not found or not a user
node')` is modelled as `Except.error`; on success the message content and
node label are rewritten and each child's subtree is deleted in order. -/
def editUserNodeContent (db : Db) (conversationId nodeId newContent : String) :
    Except String GraphNode × Db :=
  match db.nodes.find? fun n => n.conversation_id == conversationId && n.id == nodeId with
  | none => (Except.error "Node not found or not a user node", db)
  | some node =>
    if node.«type» ≠ "user" then (Except.error "Node not found or not a user node", db)
    else
      let dbAfterMessage :=
        match truthyStr node.message_id with
        | some mid =>
          { db with messages := db.messages.map fun (m : Message) =>
              if m.id == mid && m.conversation_id == conversationId then
                { m with content := newContent }
              else m }
        | none => db
      let dbAfterLabel := { dbAfterMessage with
        nodes := dbAfterMessage.nodes.map fun (n : GraphNode) =>
          if n.id == nodeId && n.conversation_id == conversationId then
            { n with label := newContent }
          else n }
      let children := ((dbAfterLabel.edges.filter fun (e : GraphEdge) =>
        e.conversation_id == conversationId && e.source == nodeId).map
          fun (e : GraphEdge) => e.target)
      let dbFinal := children.foldl
        (fun acc child => (deleteNodeSubtreeRespectingJoins acc conversationId child).2)
        dbAfterLabel
      (Except.ok { node with label := newContent }, dbFinal)

/-! ## Node placement (`findFreePositionAABB`, frontend layout module)

Coordinates are modelled as rationals.  The spiral search of the source
evaluates `Math.cos`/`Math.sin` at eight fixed angles; those direction
cosines are irrational reals (`±√2/2` for the diagonals), so the embedding
takes the table of per-ring direction vectors as a parameter `dirs` — the
no-overlap guarantee proved below holds for every direction table, hence in
particular for the floating-point one of the source. -/

structure NodeRect where
  x : ℚ
  y : ℚ
  width : ℚ
  height : ℚ
deriving DecidableEq

structure PlacedPosition where
  x : ℚ
  y : ℚ
deriving DecidableEq

def DEFAULT_NODE_WIDTH : ℚ := 320
def DEFAULT_NODE_HEIGHT : ℚ := 180
/-- Minimum gap between nodes. -/
def NODE_SPACING : ℚ := 40

/-- AABB collision with `spacing` padding: two rectangles collide unless
separated by at least `spacing` on the x- or y-axis.  The source calls this
with the default `spacing = NODE_SPACING` everywhere; the embedding passes
the spacing explicitly. -/
def rectsCollide (a b : NodeRect) (spacing : ℚ) : Bool :=
  !(decide (a.x + a.width + spacing ≤ b.x) ||
    decide (b.x + b.width + spacing ≤ a.x) ||
    decide (a.y + a.height + spacing ≤ b.y) ||
    decide (b.y + b.height + spacing ≤ a.y))

/-- The fixed, priority-ordered candidate offset list of
`findFreePositionAABB` (below centered, below-right, below-left, further
below, right, left, above). -/
def candidateOffsets (parentRect : NodeRect) (newWidth newHeight : ℚ) : List (ℚ × ℚ) :=
  [ (0, parentRect.height + NODE_SPACING),
    (parentRect.width + NODE_SPACING, parentRect.height + NODE_SPACING),
    (-(newWidth + NODE_SPACING), parentRect.height + NODE_SPACING),
    (0, parentRect.height + NODE_SPACING + newHeight + NODE_SPACING),
    (parentRect.width + NODE_SPACING, 0),
    (-(newWidth + NODE_SPACING), 0),
    (0, -(newHeight + NODE_SPACING)) ]

/-- `findPositionSpiral`: expanding rings (1..10) around the parent's center,
each ring evaluating the direction table at distance
`ring * (max(newWidth, newHeight) + NODE_SPACING)`; first non-colliding
candidate wins; otherwise place directly below the lowest occupied rectangle,
offset by twice the spacing. -/
def findPositionSpiral (parentRect : NodeRect) (newWidth newHeight : ℚ)
    (existingNodes : List NodeRect) (dirs : List (ℚ × ℚ)) : PlacedPosition :=
  let centerX := parentRect.x + parentRect.width / 2 - newWidth / 2
  let centerY := parentRect.y + parentRect.height / 2 - newHeight / 2
  let candidates := ((List.range 10).map fun r => r + 1).flatMap fun (ring : Nat) =>
    let ringDistance := (ring : ℚ) * (max newWidth newHeight + NODE_SPACING)
    dirs.map fun d =>
      ({ x := centerX + d.1 * ringDistance, y := centerY + d.2 * ringDistance,
         width := newWidth, height := newHeight } : NodeRect)
  match candidates.find? fun c =>
      !(existingNodes.any fun node => rectsCollide c node NODE_SPACING) with
  | some c => { x := c.x, y := c.y }
  | none =>
    let maxY := existingNodes.foldr (fun n acc => max (n.y + n.height) acc)
      (parentRect.y + parentRect.height)
    { x := parentRect.x, y := maxY + NODE_SPACING * 2 }

/-- `findFreePositionAABB`: try the priority offsets, then the spiral. -/
def findFreePositionAABB (parentRect : NodeRect) (newWidth newHeight : ℚ)
    (existingNodes : List NodeRect) (dirs : List (ℚ × ℚ)) : PlacedPosition :=
  let candidates := (candidateOffsets parentRect newWidth newHeight).map fun offset =>
    ({ x := parentRect.x + offset.1, y := parentRect.y + offset.2,
       width := newWidth, height := newHeight } : NodeRect)
  match candidates.find? fun c =>
      !(existingNodes.any fun node => rectsCollide c node NODE_SPACING) with
  | some c => { x := c.x, y := c.y }
  | none => findPositionSpiral parentRect newWidth newHeight existingNodes dirs

/-! ## Context-span serializer (`serializeContent` in the `QaNode` component)

Text is a `List Char`.  The DOM children of the content-editable element are
either text nodes, or elements; an element carries the optional
`data-context-text` / `data-source-node-id` / `data-source-start-pos` /
`data-source-end-pos` dataset entries (already parsed: the code round-trips
numbers through `String(...)`/`parseInt`) and its `innerText`. -/

/-- `ContextRange` of the frontend types module. -/
structure ContextRange where
  sourceNodeId : String
  startPos : Nat
  endPos : Nat
  sourceStartPos : Option Nat
  sourceEndPos : Option Nat
deriving DecidableEq

inductive DomChild where
  /-- a DOM `TEXT_NODE`; `textContent` -/
  | textNode (textContent : List Char)
  /-- a DOM `ELEMENT_NODE` with its dataset entries and `innerText` -/
  | element (contextText : Option (List Char)) (sourceNodeId : Option String)
      (sourceStartPos sourceEndPos : Option Nat) (innerText : List Char)
deriving DecidableEq

/-- JavaScript truthiness of an optional string of characters (dataset
values are strings; `undefined` and `""` are falsy). -/
def truthyChars : Option (List Char) → Option (List Char)
  | some t => if t = [] then none else some t
  | none => none

/-- The whitespace class of JavaScript's `\s` and `String.prototype.trim`
(the ASCII members plus no-break space; the further Unicode members do not
occur in the texts considered). -/
def isJsWhitespace (c : Char) : Bool :=
  c = ' ' || c = '\t' || c = '\n' || c = '\r' || c = '\x0b' || c = '\x0c' || c = ' '

/-- JavaScript `String.prototype.trim`: strip whitespace from both ends. -/
def jsTrim (s : List Char) : List Char :=
  ((s.dropWhile isJsWhitespace).reverse.dropWhile isJsWhitespace).reverse

/-- JS `slice(a, b)` on a string (for `0 ≤ a`, `0 ≤ b`). -/
def sliceStr (s : List Char) (a b : Nat) : List Char :=
  (s.take b).drop a

/-- The `childNodes.forEach` loop body of `serializeContent`, threading the
output text built so far and the `contextRanges` pushed so far.  A context
block contributes its original `data-context-text` with a `[startPos,
endPos)` range recorded from the running output length; any other element
contributes its `innerText`. -/
def serializeLoop : List DomChild → List Char → List ContextRange →
    List Char × List ContextRange
  | [], text, contextRanges => (text, contextRanges)
  | DomChild.textNode t :: rest, text, contextRanges =>
    serializeLoop rest (text ++ t) contextRanges
  | DomChild.element ct sid ssp sep innerText :: rest, text, contextRanges =>
    match truthyChars ct, truthyStr sid with
    | some contextText, some srcId =>
      let startPos := text.length
      let text2 := text ++ contextText
      let endPos := text2.length
      serializeLoop rest text2
        (contextRanges ++ [⟨srcId, startPos, endPos, ssp, sep⟩])
    | _, _ => serializeLoop rest (text ++ innerText) contextRanges

/-- `serializeContent`: run the loop over the children, then return
`{ text: text.trim(), contextRanges }`. -/
def serializeContent (children : List DomChild) : List Char × List ContextRange :=
  let r := serializeLoop children [] []
  (jsTrim r.1, r.2)

/-- The original quoted texts of the context blocks among `children`, in
block order (elements passing the same truthiness test the serializer
uses). -/
def contextTexts : List DomChild → List (List Char)
  | [] => []
  | DomChild.textNode _ :: rest => contextTexts rest
  | DomChild.element ct sid _ _ _ :: rest =>
    match truthyChars ct, truthyStr sid with
    | some contextText, some _ => contextText :: contextTexts rest
    | _, _ => contextTexts rest

/-! ## Highlight locator (the `highlightText` effect of `QaNode`)

The effect joins the text nodes of the AI bubble into `combinedText`, then
looks for `highlightText` with `indexOf`; failing that it collapses
whitespace runs on both strings, matches again, and maps the normalized
match position back through non-whitespace character counts.  The embedding
returns the `[matchStart, matchEnd)` span it would highlight, or `none` for
the silent no-op branches. -/

/-- JS `String.prototype.indexOf` on character lists: position of the first
occurrence of `pat`, if any. -/
def strIndexOf (pat : List Char) : List Char → Option Nat
  | [] => if pat.isPrefixOf [] then some 0 else none
  | c :: t =>
    if pat.isPrefixOf (c :: t) then some 0
    else (strIndexOf pat t).map fun i => i + 1

/-- `text.replace(/\s+/g, ' ')`: collapse every whitespace run to a single
space.  The Boolean flag records whether the previous character was part of
a whitespace run already replaced. -/
def collapseWsAux : Bool → List Char → List Char
  | _, [] => []
  | inRun, c :: rest =>
    if isJsWhitespace c then
      if inRun then collapseWsAux true rest else ' ' :: collapseWsAux true rest
    else c :: collapseWsAux false rest

/-- `normalizeWhitespace`: collapse whitespace runs, then trim. -/
def normalizeWhitespace (text : List Char) : List Char :=
  jsTrim (collapseWsAux false text)

/-- The loop "find position in original where we have same non-whitespace
count": the first index at which the running non-whitespace count exceeds
`target` (the JS `matchStart` loop; `none` when the loop never breaks and
`matchStart` stays `-1`). -/
def scanCountExceeds (target : Nat) : List Char → Nat → Nat → Option Nat
  | [], _, _ => none
  | c :: rest, cnt, i =>
    let cnt2 := if isJsWhitespace c then cnt else cnt + 1
    if target < cnt2 then some i else scanCountExceeds target rest cnt2 (i + 1)

/-- The matching end-position loop: one past the first index at which the
running non-whitespace count reaches `target` (the JS `matchEnd` loop;
`none` when the loop never breaks, in which case the code keeps
`combinedText.length`). -/
def scanCountReaches (target : Nat) : List Char → Nat → Nat → Option Nat
  | [], _, _ => none
  | c :: rest, cnt, i =>
    let cnt2 := if isJsWhitespace c then cnt else cnt + 1
    if target ≤ cnt2 then some (i + 1) else scanCountReaches target rest cnt2 (i + 1)

/-- The whole locate logic of the highlight effect: exact `indexOf` first,
then the whitespace-normalized fallback; `none` models the silent no-op
(`return` without touching the DOM). -/
def locateHighlight (combinedText highlightText : List Char) : Option (Nat × Nat) :=
  match strIndexOf highlightText combinedText with
  | some matchStart => some (matchStart, matchStart + highlightText.length)
  | none =>
    let normalizedSearch := normalizeWhitespace highlightText
    let normalizedCombined := normalizeWhitespace combinedText
    match strIndexOf normalizedSearch normalizedCombined with
    | none => none
    | some normalizedMatchStart =>
      let targetNonWsCount :=
        ((normalizedCombined.take normalizedMatchStart).filter
          fun c => !isJsWhitespace c).length
      match scanCountExceeds targetNonWsCount combinedText 0 0 with
      | none => none
      | some matchStart =>
        let endNonWsCount := targetNonWsCount +
          (normalizedSearch.filter fun c => !isJsWhitespace c).length
        let matchEndScan := (scanCountReaches endNonWsCount combinedText 0 0).getD
          combinedText.length
        let effectiveHighlightText := sliceStr combinedText matchStart matchEndScan
        some (matchStart, matchStart + effectiveHighlightText.length)

/-! ## AI boundary (`ai-service.ts`)

`callGeminiAPI` performs one `fetch`; the embedding abstracts one call's
observable outcome as the HTTP `ok` flag and status, the parsed error body's
`error.message` (if any), and the parsed success body's `candidates` array.
`generateAIResponse` consumes the outcomes of the first and second attempt. -/

structure GeminiPart where
  text : Option String
deriving DecidableEq

structure GeminiCandidateContent where
  parts : Option (List GeminiPart)
deriving DecidableEq

structure GeminiCandidate where
  content : Option GeminiCandidateContent
deriving DecidableEq

/-- The observable outcome of one `fetch` to the Gemini endpoint. -/
structure GeminiHttpResponse where
  ok : Bool
  status : Nat
  /-- `errBody?.error?.message` (already `null` when the error body failed to
  parse, matching the `.catch(() => null)`) -/
  errorMessage : Option String
  /-- the success body's `candidates` field -/
  candidates : Option (List GeminiCandidate)
deriving DecidableEq

/-- JavaScript `String.prototype.trim` on a `String`. -/
def jsTrimString (s : String) : String :=
  String.mk (jsTrim s.data)

/-- `data.candidates?.[0]?.content?.parts?.map(p => p.text ?? '').join('').trim()`. -/
def extractAiText (r : GeminiHttpResponse) : Option String :=
  (((r.candidates.bind fun cs => cs.head?).bind fun c => c.content).bind
    fun cc => cc.parts).map fun parts =>
      jsTrimString (String.join (parts.map fun p => p.text.getD ""))

/-- `callGeminiAPI`: non-ok responses throw the error body's message (or the
status fallback — `??` is nullish coalescing, so an empty message string is
kept); an absent or empty `aiText` throws `'AI returned an empty response'`;
otherwise the trimmed text is returned. -/
def callGeminiAPI (response : GeminiHttpResponse) : Except String String :=
  if !response.ok then
    Except.error (response.errorMessage.getD
      ("AI request failed with status " ++ toString response.status))
  else
    match extractAiText response with
    | none => Except.error "AI returned an empty response"
    | some t =>
      if t = "" then Except.error "AI returned an empty response" else Except.ok t

/-- `generateAIResponse`: two attempts, second only on the first's failure;
both failing yields the fixed user-facing error. -/
def generateAIResponse (attempt : Nat → GeminiHttpResponse) : Except String String :=
  match callGeminiAPI (attempt 0) with
  | Except.ok text => Except.ok text
  | Except.error _ =>
    match callGeminiAPI (attempt 1) with
    | Except.ok text => Except.ok text
    | Except.error _ => Except.error "Failed to generate AI response. Please try again."

/-! ## Concrete fixtures

Small stores used by the witnesses and counterexamples below.  `chainDb` is
the linear conversation `A(user) → B(ai) → C(user) → D(ai)` of the
specification's test scenarios; `diamondDb` is the join-shaped graph
`R → A, R → B, A → C, B → C`. -/

def chainDb : Db :=
  { messages := [⟨"mA", "c", "user", "what is X", 1⟩, ⟨"mB", "c", "ai", "X is 1", 2⟩,
                 ⟨"mC", "c", "user", "and Y", 3⟩, ⟨"mD", "c", "ai", "Y is 2", 4⟩],
    nodes := [⟨"A", "c", some "mA", "user", "what is X", 1, none, none⟩,
              ⟨"B", "c", some "mB", "ai", "X is 1", 2, none, none⟩,
              ⟨"C", "c", some "mC", "user", "and Y", 3, none, none⟩,
              ⟨"D", "c", some "mD", "ai", "Y is 2", 4, none, none⟩],
    edges := [⟨"e1", "c", "A", "B", 1⟩, ⟨"e2", "c", "B", "C", 2⟩, ⟨"e3", "c", "C", "D", 3⟩] }

def diamondDb : Db :=
  { messages := [],
    nodes := [⟨"R", "c", none, "user", "", 1, none, none⟩,
              ⟨"A", "c", none, "ai", "", 2, none, none⟩,
              ⟨"B", "c", none, "ai", "", 3, none, none⟩,
              ⟨"C", "c", none, "user", "", 4, none, none⟩],
    edges := [⟨"d1", "c", "R", "A", 1⟩, ⟨"d2", "c", "R", "B", 2⟩,
              ⟨"d3", "c", "A", "C", 3⟩, ⟨"d4", "c", "B", "C", 4⟩] }

/-- Fixture draft content: text, a context block quoting `"cd"` from node
`s1` (with source span 3..5), a second block quoting `"xy"` from `s2`, and a
trailing text node. -/
def draftChildren : List DomChild :=
  [DomChild.textNode "ab".toList,
   DomChild.element (some "cd".toList) (some "s1") (some 3) (some 5) [],
   DomChild.element (some "xy".toList) (some "s2") none none [],
   DomChild.textNode " tail".toList]

/-- Fixture draft content whose concatenation starts with whitespace. -/
def leadingSpaceChildren : List DomChild :=
  [DomChild.textNode [' '],
   DomChild.element (some "foo".toList) (some "src") none none []]

/-- Fixture: a successful Gemini response whose single candidate carries the
parts `" hi "` and a missing text. -/
def aiOkResponse : GeminiHttpResponse :=
  { ok := true, status := 200, errorMessage := none,
    candidates := some [⟨some ⟨some [⟨some " hi "⟩, ⟨none⟩]⟩⟩] }

/-- Fixture: a failed (HTTP 500) Gemini response. -/
def aiFailResponse : GeminiHttpResponse :=
  { ok := false, status := 500, errorMessage := none, candidates := none }

/-! ## Traversal lemmas and claim theorems -/

theorem traverseMeasure_tail (next : String → List String) (univ : List String)
    (current : String) (rest visited : List String) :
    traverseMeasure next univ rest visited <
      traverseMeasure next univ (current :: rest) visited := by
  unfold traverseMeasure
  have hsub : (univ.toFinset ∪ rest.toFinset) \ visited.toFinset ⊆
      (univ.toFinset ∪ (current :: rest).toFinset) \ visited.toFinset := by
    apply Finset.sdiff_subset_sdiff _ le_rfl
    apply Finset.union_subset_union_right
    rw [List.toFinset_cons]
    exact Finset.subset_insert _ _
  have hsum : (((univ.toFinset ∪ rest.toFinset) \ visited.toFinset).sum
        fun v => (next v).length) ≤
      (((univ.toFinset ∪ (current :: rest).toFinset) \ visited.toFinset).sum
        fun v => (next v).length) :=
    Finset.sum_le_sum_of_subset hsub
  simp only [List.length_cons]
  omega

theorem traverseMeasure_visit (next : String → List String) (keep : String → Bool)
    (univ : List String) (current : String) (rest visited : List String)
    (hnext : ∀ y ∈ next current, y ∈ univ) (hcur : current ∉ visited) :
    traverseMeasure next univ
        (((next current).filter fun c => keep c && decide (c ∉ current :: visited)).reverse ++ rest)
        (current :: visited) <
      traverseMeasure next univ (current :: rest) visited := by
  unfold traverseMeasure
  set pushed := ((next current).filter fun c => keep c && decide (c ∉ current :: visited)).reverse
    with hpushed
  have hpushed_sub : ∀ y ∈ pushed, y ∈ next current := by
    intro y hy
    rw [hpushed, List.mem_reverse] at hy
    exact List.mem_of_mem_filter hy
  have hcurS : current ∈ (univ.toFinset ∪ (current :: rest).toFinset) \ visited.toFinset := by
    rw [Finset.mem_sdiff]
    exact ⟨Finset.mem_union_right _ (List.mem_toFinset.mpr (List.mem_cons_self _ _)),
      fun hc => hcur (List.mem_toFinset.mp hc)⟩
  have hsub : (univ.toFinset ∪ (pushed ++ rest).toFinset) \ (current :: visited).toFinset ⊆
      ((univ.toFinset ∪ (current :: rest).toFinset) \ visited.toFinset).erase current := by
    intro x hx
    simp only [Finset.mem_sdiff, Finset.mem_union, List.mem_toFinset, List.mem_append,
      List.mem_cons, not_or, Finset.mem_erase] at hx ⊢
    obtain ⟨hin, hxc, hxv⟩ := hx
    refine ⟨hxc, ?_, hxv⟩
    rcases hin with h | h | h
    · exact Or.inl h
    · exact Or.inl (hnext x (hpushed_sub x h))
    · exact Or.inr (Or.inr h)
  have hsum : (((univ.toFinset ∪ (pushed ++ rest).toFinset) \ (current :: visited).toFinset).sum
        fun v => (next v).length) ≤
      ((((univ.toFinset ∪ (current :: rest).toFinset) \ visited.toFinset).erase current).sum
        fun v => (next v).length) :=
    Finset.sum_le_sum_of_subset hsub
  have herase : ((((univ.toFinset ∪ (current :: rest).toFinset) \ visited.toFinset).erase
          current).sum fun v => (next v).length) + (next current).length =
      (((univ.toFinset ∪ (current :: rest).toFinset) \ visited.toFinset).sum
        fun v => (next v).length) :=
    Finset.sum_erase_add _ _ hcurS
  have hplen : pushed.length ≤ (next current).length := by
    rw [hpushed, List.length_reverse]
    exact List.length_filter_le _ _
  simp only [List.length_append, List.length_cons]
  omega

/-- Already-visited nodes stay in the visited set. -/
theorem graphTraverseFuel_mem_of_visited (next : String → List String) (keep : String → Bool)
    (fuel : Nat) (stack visited : List String) (x : String) (hx : x ∈ visited) :
    x ∈ graphTraverseFuel next keep fuel stack visited := by
  induction fuel generalizing stack visited with
  | zero => exact hx
  | succ fuel ih =>
    cases stack with
    | nil => exact hx
    | cons current rest =>
      by_cases h : current ∈ visited
      · rw [graphTraverseFuel, if_pos h]
        exact ih rest visited hx
      · rw [graphTraverseFuel, if_neg h]
        exact ih _ _ (List.mem_cons_of_mem _ hx)

/-- Every stack entry ends up visited, provided the fuel dominates the
iteration count. -/
theorem graphTraverseFuel_mem_of_stack (next : String → List String) (keep : String → Bool)
    (univ : List String) (hnext : ∀ x, ∀ y ∈ next x, y ∈ univ) (fuel : Nat) :
    ∀ stack visited : List String, traverseMeasure next univ stack visited ≤ fuel →
      ∀ s ∈ stack, s ∈ graphTraverseFuel next keep fuel stack visited := by
  induction fuel with
  | zero =>
    intro stack visited hfuel s hs
    have : stack.length = 0 := by
      unfold traverseMeasure at hfuel; omega
    rw [List.length_eq_zero] at this
    subst this
    cases hs
  | succ fuel ih =>
    intro stack visited hfuel s hs
    cases stack with
    | nil => cases hs
    | cons current rest =>
      by_cases h : current ∈ visited
      · rw [graphTraverseFuel, if_pos h]
        rcases List.mem_cons.mp hs with rfl | hs2
        · exact graphTraverseFuel_mem_of_visited _ _ _ _ _ _ h
        · exact ih rest visited
            (by have := traverseMeasure_tail next univ current rest visited; omega) s hs2
      · rw [graphTraverseFuel, if_neg h]
        rcases List.mem_cons.mp hs with rfl | hs2
        · exact graphTraverseFuel_mem_of_visited _ _ _ _ _ _ (List.mem_cons_self _ _)
        · exact ih _ _
            (by have := traverseMeasure_visit next keep univ current rest visited
                  (hnext current) h
                omega)
            s (List.mem_append_right _ hs2)

/-- Soundness: everything the traversal visits was already visited or is
`stepReach`-reachable from some stack entry. -/
theorem graphTraverseFuel_sound (next : String → List String) (keep : String → Bool)
    (fuel : Nat) :
    ∀ stack visited : List String, ∀ x ∈ graphTraverseFuel next keep fuel stack visited,
      x ∈ visited ∨ ∃ s ∈ stack, stepReach next keep s x := by
  induction fuel with
  | zero => intro stack visited x hx; exact Or.inl hx
  | succ fuel ih =>
    intro stack visited x hx
    cases stack with
    | nil => exact Or.inl hx
    | cons current rest =>
      by_cases h : current ∈ visited
      · rw [graphTraverseFuel, if_pos h] at hx
        rcases ih rest visited x hx with h1 | ⟨s, hs, hr⟩
        · exact Or.inl h1
        · exact Or.inr ⟨s, List.mem_cons_of_mem _ hs, hr⟩
      · rw [graphTraverseFuel, if_neg h] at hx
        rcases ih _ _ x hx with h1 | ⟨s, hs, hr⟩
        · rcases List.mem_cons.mp h1 with rfl | h2
          · exact Or.inr ⟨x, List.mem_cons_self _ _, Relation.ReflTransGen.refl⟩
          · exact Or.inl h2
        · rcases List.mem_append.mp hs with hpush | hrest
          · rw [List.mem_reverse] at hpush
            have hmem : s ∈ next current := List.mem_of_mem_filter hpush
            have hkeep : keep s = true := by
              have := List.of_mem_filter hpush
              exact (Bool.and_eq_true _ _).mp this |>.1
            exact Or.inr ⟨current, List.mem_cons_self _ _,
              Relation.ReflTransGen.head ⟨hmem, hkeep⟩ hr⟩
          · exact Or.inr ⟨s, List.mem_cons_of_mem _ hrest, hr⟩

/-- Closure: with enough fuel, the visited set is closed under kept steps,
given that the invariant held for the incoming visited set. -/
theorem graphTraverseFuel_closed (next : String → List String) (keep : String → Bool)
    (univ : List String) (hnext : ∀ x, ∀ y ∈ next x, y ∈ univ) (fuel : Nat) :
    ∀ stack visited : List String, traverseMeasure next univ stack visited ≤ fuel →
      (∀ v ∈ visited, ∀ p ∈ next v, keep p = true → p ∈ visited ∨ p ∈ stack) →
      ∀ v ∈ graphTraverseFuel next keep fuel stack visited, ∀ p ∈ next v, keep p = true →
        p ∈ graphTraverseFuel next keep fuel stack visited := by
  induction fuel with
  | zero =>
    intro stack visited hfuel hinv v hv p hp hkeep
    have : stack.length = 0 := by
      unfold traverseMeasure at hfuel; omega
    rw [List.length_eq_zero] at this
    subst this
    rcases hinv v hv p hp hkeep with h | h
    · exact h
    · cases h
  | succ fuel ih =>
    intro stack visited hfuel hinv v hv p hp hkeep
    cases stack with
    | nil =>
      rcases hinv v hv p hp hkeep with h | h
      · exact h
      · cases h
    | cons current rest =>
      by_cases h : current ∈ visited
      · rw [graphTraverseFuel, if_pos h] at hv ⊢
        refine ih rest visited
          (by have := traverseMeasure_tail next univ current rest visited; omega)
          ?_ v hv p hp hkeep
        intro w hw q hq hkq
        rcases hinv w hw q hq hkq with h1 | h1
        · exact Or.inl h1
        · rcases List.mem_cons.mp h1 with rfl | h2
          · exact Or.inl h
          · exact Or.inr h2
      · rw [graphTraverseFuel, if_neg h] at hv ⊢
        refine ih _ _
          (by have := traverseMeasure_visit next keep univ current rest visited
                (hnext current) h
              omega)
          ?_ v hv p hp hkeep
        intro w hw q hq hkq
        rcases List.mem_cons.mp hw with rfl | hw2
        · by_cases hqv : q ∈ w :: visited
          · exact Or.inl hqv
          · refine Or.inr (List.mem_append_left _ ?_)
            rw [List.mem_reverse]
            exact List.mem_filter.mpr ⟨hq, by simp [hkq, hqv]⟩
        · rcases hinv w hw2 q hq hkq with h1 | h1
          · exact Or.inl (List.mem_cons_of_mem _ h1)
          · rcases List.mem_cons.mp h1 with rfl | h2
            · exact Or.inl (List.mem_cons_self _ _)
            · exact Or.inr (List.mem_append_right _ h2)

/-- Completeness: starting from an empty visited set, everything reachable
from a stack entry is visited. -/
theorem graphTraverseFuel_complete (next : String → List String) (keep : String → Bool)
    (univ : List String) (hnext : ∀ x, ∀ y ∈ next x, y ∈ univ) (fuel : Nat)
    (stack : List String) (hfuel : traverseMeasure next univ stack [] ≤ fuel)
    (s x : String) (hs : s ∈ stack) (hr : stepReach next keep s x) :
    x ∈ graphTraverseFuel next keep fuel stack [] := by
  have hclosed := graphTraverseFuel_closed next keep univ hnext fuel stack [] hfuel
    (by intro v hv; cases hv)
  induction hr with
  | refl => exact graphTraverseFuel_mem_of_stack next keep univ hnext fuel stack [] hfuel s hs
  | tail hab hbc ih => exact hclosed _ ih _ hbc.1 hbc.2

/-- Characterization of the traversal from an empty visited set. -/
theorem graphTraverseFuel_mem_iff (next : String → List String) (keep : String → Bool)
    (univ : List String) (hnext : ∀ x, ∀ y ∈ next x, y ∈ univ) (fuel : Nat)
    (stack : List String) (hfuel : traverseMeasure next univ stack [] ≤ fuel) (x : String) :
    x ∈ graphTraverseFuel next keep fuel stack [] ↔ ∃ s ∈ stack, stepReach next keep s x := by
  constructor
  · intro hx
    rcases graphTraverseFuel_sound next keep fuel stack [] x hx with h | h
    · cases h
    · exact h
  · rintro ⟨s, hs, hr⟩
    exact graphTraverseFuel_complete next keep univ hnext fuel stack hfuel s x hs hr

/-- Each edge contributes to `parentsOf`/`childrenOf` of exactly one node, so
the per-node adjacency lengths summed over any node set are bounded by the
edge count.  Stated for an arbitrary key function to cover both maps. -/
theorem sum_filter_key_length_le (key : GraphEdge → String) (edges : List GraphEdge) :
    ∀ s : Finset String,
      (s.sum fun v => (edges.filter fun e => key e == v).length) ≤ edges.length := by
  induction edges with
  | nil => intro s; simp
  | cons e es ih =>
    intro s
    have hstep : ∀ v, ((e :: es).filter fun e2 => key e2 == v).length =
        (if key e = v then 1 else 0) + (es.filter fun e2 => key e2 == v).length := by
      intro v
      by_cases h : key e = v
      · simp [List.filter_cons, h, Nat.add_comm]
      · simp [List.filter_cons, h]
    calc (s.sum fun v => ((e :: es).filter fun e2 => key e2 == v).length)
        = (s.sum fun v =>
            (if key e = v then 1 else 0) + (es.filter fun e2 => key e2 == v).length) := by
          exact Finset.sum_congr rfl fun v _ => hstep v
      _ = (s.sum fun v => (if key e = v then 1 else 0)) +
            (s.sum fun v => (es.filter fun e2 => key e2 == v).length) :=
          Finset.sum_add_distrib
      _ ≤ 1 + es.length := by
          have h1 : (s.sum fun v => (if key e = v then 1 else 0)) ≤ 1 := by
            rw [Finset.sum_ite_eq s (key e) (fun _ => 1)]
            split <;> omega
          exact Nat.add_le_add h1 (ih s)
      _ = (e :: es).length := by simp [Nat.add_comm]

theorem traverseMeasure_parentsOf_le (edges : List GraphEdge) (stack : List String) :
    traverseMeasure (parentsOf edges) (edges.map fun e => e.source) stack [] ≤
      stack.length + edges.length := by
  unfold traverseMeasure
  have h : ((((edges.map fun e => e.source).toFinset ∪ stack.toFinset) \
        ([] : List String).toFinset).sum fun v => (parentsOf edges v).length) ≤
      edges.length := by
    have := sum_filter_key_length_le (fun e => e.target) edges
      (((edges.map fun e => e.source).toFinset ∪ stack.toFinset) \
        ([] : List String).toFinset)
    simpa [parentsOf] using this
  omega

theorem traverseMeasure_childrenOf_le (edges : List GraphEdge) (stack : List String) :
    traverseMeasure (childrenOf edges) (edges.map fun e => e.target) stack [] ≤
      stack.length + edges.length := by
  unfold traverseMeasure
  have h : ((((edges.map fun e => e.target).toFinset ∪ stack.toFinset) \
        ([] : List String).toFinset).sum fun v => (childrenOf edges v).length) ≤
      edges.length := by
    have := sum_filter_key_length_le (fun e => e.source) edges
      (((edges.map fun e => e.target).toFinset ∪ stack.toFinset) \
        ([] : List String).toFinset)
    simpa [childrenOf] using this
  omega

theorem parentsOf_mem_sources (edges : List GraphEdge) :
    ∀ x, ∀ y ∈ parentsOf edges x, y ∈ edges.map fun e => e.source := by
  intro x y hy
  rw [parentsOf, List.mem_map] at hy
  obtain ⟨e, he, rfl⟩ := hy
  exact List.mem_map.mpr ⟨e, List.mem_of_mem_filter he, rfl⟩

theorem childrenOf_mem_targets (edges : List GraphEdge) :
    ∀ x, ∀ y ∈ childrenOf edges x, y ∈ edges.map fun e => e.target := by
  intro x y hy
  rw [childrenOf, List.mem_map] at hy
  obtain ⟨e, he, rfl⟩ := hy
  exact List.mem_map.mpr ⟨e, List.mem_of_mem_filter he, rfl⟩

theorem ancestorVisit_mem_iff (edges : List GraphEdge) (fromNodeIds : List String)
    (x : String) :
    x ∈ ancestorVisit edges fromNodeIds ↔ ∃ s ∈ fromNodeIds, ancestorReach edges s x := by
  rw [ancestorVisit, List.mem_reverse]
  rw [graphTraverseFuel_mem_iff (parentsOf edges) (fun _ => true)
    (edges.map fun e => e.source) (parentsOf_mem_sources edges) _ _
    (by have := traverseMeasure_parentsOf_le edges fromNodeIds.reverse
        simp only [List.length_reverse] at this
        omega) x]
  constructor
  · rintro ⟨s, hs, hr⟩
    exact ⟨s, List.mem_reverse.mp hs,
      Relation.ReflTransGen.mono (fun a b h => h.1) hr⟩
  · rintro ⟨s, hs, hr⟩
    exact ⟨s, List.mem_reverse.mpr hs,
      Relation.ReflTransGen.mono (fun a b h => ⟨h, rfl⟩) hr⟩

theorem deleteVisit_mem_iff (edges : List GraphEdge) (rootNodeId x : String) :
    x ∈ deleteVisit edges rootNodeId ↔ deleteReach edges rootNodeId x := by
  rw [deleteVisit, List.mem_reverse]
  rw [graphTraverseFuel_mem_iff (childrenOf edges)
    (fun c => decide (incomingCount edges c ≤ 1))
    (edges.map fun e => e.target) (childrenOf_mem_targets edges) _ _
    (by have := traverseMeasure_childrenOf_le edges [rootNodeId]
        simp only [List.length_singleton] at this
        omega) x]
  constructor
  · rintro ⟨s, hs, hr⟩
    rw [List.mem_singleton] at hs
    subst hs
    exact Relation.ReflTransGen.mono
      (fun a b h => ⟨h.1, of_decide_eq_true h.2⟩) hr
  · intro hr
    exact ⟨rootNodeId, List.mem_singleton.mpr rfl,
      Relation.ReflTransGen.mono (fun a b h => ⟨h.1, decide_eq_true h.2⟩) hr⟩

/-! ### C8: delete of a non-existent node -/

/-- C8: for every store and every node id that is not a node of the
conversation, `deleteNodeSubtreeRespectingJoins` is a no-op: it returns an
empty deleted set and leaves the store untouched (no node rows and no
message rows deleted). -/
theorem claim8_delete_missing_root_noop (db : Db) (conversationId rootNodeId : String)
    (h : rootNodeId ∉ (convNodes db conversationId).map fun n => n.id) :
    deleteNodeSubtreeRespectingJoins db conversationId rootNodeId = ([], db) := by
  by_cases hn : convNodes db conversationId = []
  · simp [deleteNodeSubtreeRespectingJoins, hn]
  · simp [deleteNodeSubtreeRespectingJoins, hn, h]

/-- Witness for C8 at a concrete store: `"Z"` is not a node of `chainDb`. -/
theorem claim8_delete_missing_root_noop_witness :
    deleteNodeSubtreeRespectingJoins chainDb "c" "Z" = ([], chainDb) :=
  claim8_delete_missing_root_noop chainDb "c" "Z" (by decide)

/-! ### C7: edit of a missing or non-user node -/

/-- C7: an edit request for a node that does not exist in the conversation,
or whose kind is not `user`, is rejected with the descriptive failure
`'Node not found or not a user node'` and performs no mutation at all: the
returned store is the input store (no message content, node label, node or
edge is changed or deleted). -/
theorem claim7_edit_rejected (db : Db) (conversationId nodeId newContent : String)
    (h : (db.nodes.find? fun n => n.conversation_id == conversationId && n.id == nodeId) =
        none ∨
      ∃ node, (db.nodes.find? fun n =>
          n.conversation_id == conversationId && n.id == nodeId) = some node ∧
        node.«type» ≠ "user") :
    editUserNodeContent db conversationId nodeId newContent =
      (Except.error "Node not found or not a user node", db) := by
  rcases h with h | ⟨node, hfind, hty⟩
  · unfold editUserNodeContent
    rw [h]
  · unfold editUserNodeContent
    rw [hfind]
    simp [hty]

/-- Witness for C7 at a concrete store: node `B` of `chainDb` has kind
`ai`. -/
theorem claim7_edit_rejected_witness :
    editUserNodeContent chainDb "c" "B" "changed" =
      (Except.error "Node not found or not a user node", chainDb) :=
  claim7_edit_rejected chainDb "c" "B" "changed"
    (Or.inr ⟨⟨"B", "c", some "mB", "ai", "X is 1", 2, none, none⟩, by decide, by decide⟩)

/-! ### C10: the AI retry boundary -/

/-- A successful `callGeminiAPI` never yields the empty string (the empty
trimmed text is converted into the `'AI returned an empty response'`
failure). -/
theorem callGeminiAPI_ok_ne_empty (r : GeminiHttpResponse) (s : String)
    (h : callGeminiAPI r = Except.ok s) : s ≠ "" := by
  intro hempty
  subst hempty
  unfold callGeminiAPI at h
  split at h
  · exact Except.noConfusion h
  · split at h
    · exact Except.noConfusion h
    · split at h
      · exact Except.noConfusion h
      · rename_i ht
        injection h with h2
        exact ht h2

/-- C10: `generateAIResponse` invokes the external call at most twice (its
result depends only on the outcomes of attempts 0 and 1); it never returns
an empty string; a success is the first attempt's text, or the second
attempt's after a first failure; two failures yield the fixed error; and an
ok response with a missing or empty candidate text is itself converted into
the empty-response failure rather than returned. -/
theorem claim10_generate_ai_response (attempt attempt2 : Nat → GeminiHttpResponse) :
    (attempt 0 = attempt2 0 → attempt 1 = attempt2 1 →
      generateAIResponse attempt = generateAIResponse attempt2) ∧
    (∀ s, generateAIResponse attempt = Except.ok s →
      s ≠ "" ∧ (callGeminiAPI (attempt 0) = Except.ok s ∨
        ((∃ msg, callGeminiAPI (attempt 0) = Except.error msg) ∧
          callGeminiAPI (attempt 1) = Except.ok s))) ∧
    ((∃ msg, callGeminiAPI (attempt 0) = Except.error msg) →
      (∃ msg2, callGeminiAPI (attempt 1) = Except.error msg2) →
      generateAIResponse attempt =
        Except.error "Failed to generate AI response. Please try again.") ∧
    (∀ r : GeminiHttpResponse, r.ok = true →
      extractAiText r = none ∨ extractAiText r = some "" →
      callGeminiAPI r = Except.error "AI returned an empty response") := by
  refine ⟨?_, ?_, ?_, ?_⟩
  · intro h0 h1
    unfold generateAIResponse
    rw [h0, h1]
  · intro s hs
    unfold generateAIResponse at hs
    cases hc0 : callGeminiAPI (attempt 0) with
    | ok t =>
      rw [hc0] at hs
      injection hs with h2
      subst h2
      exact ⟨callGeminiAPI_ok_ne_empty _ _ hc0, Or.inl rfl⟩
    | error msg =>
      rw [hc0] at hs
      cases hc1 : callGeminiAPI (attempt 1) with
      | ok t =>
        rw [hc1] at hs
        injection hs with h2
        subst h2
        exact ⟨callGeminiAPI_ok_ne_empty _ _ hc1, Or.inr ⟨⟨msg, rfl⟩, rfl⟩⟩
      | error msg2 =>
        rw [hc1] at hs
        exact Except.noConfusion hs
  · rintro ⟨msg, h0⟩ ⟨msg2, h1⟩
    unfold generateAIResponse
    rw [h0, h1]
  · intro r hok hex
    unfold callGeminiAPI
    have hnot : ¬ ((!r.ok) = true) := by simp [hok]
    rw [if_neg hnot]
    rcases hex with h | h
    · rw [h]
    · rw [h]
      simp

/-- Witness for C10: a failing first attempt followed by a successful second
attempt yields that attempt's non-empty trimmed text. -/
theorem claim10_generate_ai_response_witness :
    "hi" ≠ "" ∧
      (callGeminiAPI ((fun n => if n = 0 then aiFailResponse else aiOkResponse) 0) =
          Except.ok "hi" ∨
        ((∃ msg, callGeminiAPI ((fun n => if n = 0 then aiFailResponse else aiOkResponse) 0) =
            Except.error msg) ∧
          callGeminiAPI ((fun n => if n = 0 then aiFailResponse else aiOkResponse) 1) =
            Except.ok "hi")) :=
  (claim10_generate_ai_response (fun n => if n = 0 then aiFailResponse else aiOkResponse)
    (fun n => if n = 0 then aiFailResponse else aiOkResponse)).2.1 "hi" rfl

/-! ### C4: placement never overlaps an occupied rectangle -/

/-- A candidate accepted by the `find?` collision scan collides with no
occupied rectangle. -/
theorem find?_candidate_no_collide (cands existing : List NodeRect) (c : NodeRect)
    (hfind : cands.find? (fun c =>
      !(existing.any fun node => rectsCollide c node NODE_SPACING)) = some c)
    (b : NodeRect) (hb : b ∈ existing) :
    rectsCollide c b NODE_SPACING = false := by
  have hp := List.find?_some hfind
  have hany : (existing.any fun node => rectsCollide c node NODE_SPACING) = false := by
    cases hh : (existing.any fun node => rectsCollide c node NODE_SPACING)
    · rfl
    · rw [hh] at hp
      exact absurd hp (by simp)
  have hnb := (List.any_eq_false.mp hany) b hb
  cases hcb : rectsCollide c b NODE_SPACING
  · rfl
  · exact absurd hcb hnb

/-- Every occupied rectangle's bottom edge is bounded by the `Math.max` fold
of the ultimate fallback. -/
theorem le_foldr_bottom (l : List NodeRect) (init : ℚ) (b : NodeRect) (hb : b ∈ l) :
    b.y + b.height ≤ l.foldr (fun n acc => max (n.y + n.height) acc) init := by
  induction l with
  | nil => cases hb
  | cons a t ih =>
    rcases List.mem_cons.mp hb with rfl | h2
    · exact le_max_left _ _
    · exact le_trans (ih h2) (le_max_right _ _)

/-- C4: for every parent rectangle, new-node dimensions, occupied set and
spiral direction table, the position returned by `findFreePositionAABB`
(including the spiral search and the below-the-lowest-rectangle fallback)
yields a rectangle that AABB-collides, within the fixed `NODE_SPACING`
margin, with no rectangle of the occupied set. -/
theorem claim4_placement_no_overlap (parentRect : NodeRect) (newWidth newHeight : ℚ)
    (existingNodes : List NodeRect) (dirs : List (ℚ × ℚ)) (b : NodeRect)
    (hb : b ∈ existingNodes) :
    rectsCollide
      ⟨(findFreePositionAABB parentRect newWidth newHeight existingNodes dirs).x,
       (findFreePositionAABB parentRect newWidth newHeight existingNodes dirs).y,
       newWidth, newHeight⟩ b NODE_SPACING = false := by
  set result := findFreePositionAABB parentRect newWidth newHeight existingNodes dirs
    with hres
  rw [findFreePositionAABB] at hres
  split at hres
  · rename_i c hfind
    obtain ⟨offset, _, hoff⟩ := List.mem_map.mp (List.mem_of_find?_eq_some hfind)
    have hcol := find?_candidate_no_collide _ _ _ hfind b hb
    rw [hres]
    show rectsCollide ⟨c.x, c.y, newWidth, newHeight⟩ b NODE_SPACING = false
    have hrc : (⟨c.x, c.y, newWidth, newHeight⟩ : NodeRect) = c := by rw [← hoff]
    rw [hrc]
    exact hcol
  · rename_i hfind
    rw [findPositionSpiral] at hres
    split at hres
    · rename_i c hfind2
      obtain ⟨ring, _, hc⟩ := List.mem_flatMap.mp (List.mem_of_find?_eq_some hfind2)
      obtain ⟨d, _, hoff⟩ := List.mem_map.mp hc
      have hcol := find?_candidate_no_collide _ _ _ hfind2 b hb
      rw [hres]
      show rectsCollide ⟨c.x, c.y, newWidth, newHeight⟩ b NODE_SPACING = false
      have hrc : (⟨c.x, c.y, newWidth, newHeight⟩ : NodeRect) = c := by rw [← hoff]
      rw [hrc]
      exact hcol
    · rename_i hfind2
      rw [hres]
      have hmax := le_foldr_bottom existingNodes
        (parentRect.y + parentRect.height) b hb
      have h4 : b.y + b.height + NODE_SPACING ≤
          (existingNodes.foldr (fun n acc => max (n.y + n.height) acc)
            (parentRect.y + parentRect.height)) + NODE_SPACING * 2 := by
        unfold NODE_SPACING
        linarith
      simp [rectsCollide, h4]

/-- Witness for C4 at the specification's scenario: parent at
`(0, 0, 320, 180)` with one occupied rectangle at `(0, 220, 320, 180)`. -/
theorem claim4_placement_no_overlap_witness :
    rectsCollide
      ⟨(findFreePositionAABB ⟨0, 0, 320, 180⟩ 320 180 [⟨0, 220, 320, 180⟩] []).x,
       (findFreePositionAABB ⟨0, 0, 320, 180⟩ 320 180 [⟨0, 220, 320, 180⟩] []).y,
       320, 180⟩ ⟨0, 220, 320, 180⟩ NODE_SPACING = false :=
  claim4_placement_no_overlap ⟨0, 0, 320, 180⟩ 320 180 [⟨0, 220, 320, 180⟩] []
    ⟨0, 220, 320, 180⟩ (List.mem_singleton.mpr rfl)

/-! ### C5: the serializer round-trip law -/

/-- Slicing the middle block out of a three-part concatenation. -/
theorem sliceStr_append_middle (a b c : List Char) :
    sliceStr (a ++ b ++ c) a.length (a.length + b.length) = b := by
  unfold sliceStr
  rw [List.drop_take, List.append_assoc, List.drop_left, Nat.add_sub_cancel_left,
    List.take_left]

/-- Loop invariant of `serializeContent`: the loop extends the accumulated
text on the right, appends one range per (truthy) context block in block
order, and every new range recorded slices its block's original quoted text
back out of the final concatenated (pre-trim) text. -/
theorem serializeLoop_spec (children : List DomChild) :
    ∀ (accText : List Char) (accRanges : List ContextRange),
      ∃ ext newRs,
        serializeLoop children accText accRanges = (accText ++ ext, accRanges ++ newRs) ∧
        List.Forall₂ (fun (r : ContextRange) (q : List Char) =>
          r.endPos = r.startPos + q.length ∧
          sliceStr (accText ++ ext) r.startPos r.endPos = q) newRs (contextTexts children) := by
  induction children with
  | nil =>
    intro accText accRanges
    exact ⟨[], [], by simp [serializeLoop], by simp [contextTexts]⟩
  | cons child rest ih =>
    intro accText accRanges
    cases child with
    | textNode t =>
      obtain ⟨ext, newRs, heq, hfa⟩ := ih (accText ++ t) accRanges
      refine ⟨t ++ ext, newRs, ?_, ?_⟩
      · rw [serializeLoop, heq, List.append_assoc]
      · simp only [contextTexts]
        rw [← List.append_assoc]
        exact hfa
    | element ct sid ssp sep innerText =>
      rcases hct : truthyChars ct with _ | contextText
      · obtain ⟨ext, newRs, heq, hfa⟩ := ih (accText ++ innerText) accRanges
        refine ⟨innerText ++ ext, newRs, ?_, ?_⟩
        · have hstep : serializeLoop (DomChild.element ct sid ssp sep innerText :: rest)
              accText accRanges = serializeLoop rest (accText ++ innerText) accRanges := by
            simp only [serializeLoop, hct]
          rw [hstep, heq, List.append_assoc]
        · have hcx : contextTexts (DomChild.element ct sid ssp sep innerText :: rest) =
              contextTexts rest := by
            simp only [contextTexts, hct]
          rw [hcx, ← List.append_assoc]
          exact hfa
      · rcases hsid : truthyStr sid with _ | srcId
        · obtain ⟨ext, newRs, heq, hfa⟩ := ih (accText ++ innerText) accRanges
          refine ⟨innerText ++ ext, newRs, ?_, ?_⟩
          · have hstep : serializeLoop (DomChild.element ct sid ssp sep innerText :: rest)
                accText accRanges = serializeLoop rest (accText ++ innerText) accRanges := by
              simp only [serializeLoop, hct, hsid]
            rw [hstep, heq, List.append_assoc]
          · have hcx : contextTexts (DomChild.element ct sid ssp sep innerText :: rest) =
                contextTexts rest := by
              simp only [contextTexts, hct, hsid]
            rw [hcx, ← List.append_assoc]
            exact hfa
        · obtain ⟨ext, newRs, heq, hfa⟩ := ih (accText ++ contextText)
            (accRanges ++ [⟨srcId, accText.length, (accText ++ contextText).length, ssp, sep⟩])
          refine ⟨contextText ++ ext,
            ⟨srcId, accText.length, (accText ++ contextText).length, ssp, sep⟩ :: newRs,
            ?_, ?_⟩
          · have hstep : serializeLoop (DomChild.element ct sid ssp sep innerText :: rest)
                accText accRanges = serializeLoop rest (accText ++ contextText)
                  (accRanges ++
                    [⟨srcId, accText.length, (accText ++ contextText).length, ssp, sep⟩]) := by
              simp only [serializeLoop, hct, hsid]
            rw [hstep, heq]
            simp [List.append_assoc]
          · have hcx : contextTexts (DomChild.element ct sid ssp sep innerText :: rest) =
                contextText :: contextTexts rest := by
              simp only [contextTexts, hct, hsid]
            rw [hcx]
            constructor
            · constructor
              · simp [List.length_append]
              · show sliceStr (accText ++ (contextText ++ ext)) accText.length
                  ((accText ++ contextText).length) = contextText
                rw [List.length_append, ← List.append_assoc]
                exact sliceStr_append_middle accText contextText ext
            · rw [← List.append_assoc]
              exact hfa

/-- C5 (amended): the round-trip law holds against the pre-trim concatenated
text: whenever the concatenation needs no trimming (it neither starts nor
ends with whitespace — the returned text is the concatenation trimmed), each
recorded range, in block order, slices the originally quoted text of its
context block back out of the returned text, with
`endPos = startPos + length`. -/
theorem claim5_serialize_roundtrip (children : List DomChild)
    (h : jsTrim (serializeLoop children [] []).1 = (serializeLoop children [] []).1) :
    List.Forall₂ (fun (r : ContextRange) (q : List Char) =>
      r.endPos = r.startPos + q.length ∧
      sliceStr (serializeContent children).1 r.startPos r.endPos = q)
      (serializeContent children).2 (contextTexts children) := by
  obtain ⟨ext, newRs, heq, hfa⟩ := serializeLoop_spec children [] []
  simp only [List.nil_append] at heq hfa
  rw [heq] at h
  unfold serializeContent
  rw [heq]
  simp only []
  rw [h]
  exact hfa

/-- Counterexample to C5 as stated: a draft whose content starts with a
whitespace text node followed by a context block quoting `"foo"` from node
`src`.  The serializer records the range `[1, 4)` against the pre-trim text
`" foo"`, but returns the trimmed text `"foo"`, so the recorded range slices
`"oo"`, not the quoted `"foo"`. -/
theorem claim5_counterexample :
    (serializeContent leadingSpaceChildren).2 = [⟨"src", 1, 4, none, none⟩] ∧
    (serializeContent leadingSpaceChildren).1 = "foo".toList ∧
    sliceStr (serializeContent leadingSpaceChildren).1 1 4 ≠ "foo".toList := by
  decide

/-- Witness for C5 (amended) at a concrete draft with two adjacent context
blocks and surrounding text (`draftChildren` serializes to
`"abcdxy tail"`). -/
theorem claim5_serialize_roundtrip_witness :
    jsTrim (serializeLoop draftChildren [] []).1 = (serializeLoop draftChildren [] []).1 ∧
    List.Forall₂ (fun (r : ContextRange) (q : List Char) =>
      r.endPos = r.startPos + q.length ∧
      sliceStr (serializeContent draftChildren).1 r.startPos r.endPos = q)
      (serializeContent draftChildren).2 (contextTexts draftChildren) :=
  ⟨by decide, claim5_serialize_roundtrip draftChildren (by decide)⟩

/-! ### C6: the highlight locator -/

/-- A successful `indexOf` marks a position where the pattern starts. -/
theorem strIndexOf_some_starts (pat : List Char) :
    ∀ (hay : List Char) (i : Nat), strIndexOf pat hay = some i → pat <+: hay.drop i := by
  intro hay
  induction hay with
  | nil =>
    intro i h
    rw [strIndexOf] at h
    split at h
    · rename_i hp
      injection h with h2
      subst h2
      simpa using List.isPrefixOf_iff_prefix.mp hp
    · exact Option.noConfusion h
  | cons c t ih =>
    intro i h
    rw [strIndexOf] at h
    split at h
    · rename_i hp
      injection h with h2
      subst h2
      simpa using List.isPrefixOf_iff_prefix.mp hp
    · cases hj : strIndexOf pat t with
      | none => rw [hj] at h; exact Option.noConfusion h
      | some j =>
        rw [hj] at h
        injection h with h2
        subst h2
        simpa using ih j hj

/-- A failed `indexOf` means the pattern occurs nowhere. -/
theorem strIndexOf_none_no_occurrence (pat : List Char) :
    ∀ hay, strIndexOf pat hay = none → ¬ pat <:+: hay := by
  intro hay
  induction hay with
  | nil =>
    intro h hinf
    rw [strIndexOf] at h
    split at h
    · exact Option.noConfusion h
    · rename_i hp
      have hnil : pat = [] := by simpa using hinf
      subst hnil
      exact hp (by simp [List.isPrefixOf_iff_prefix])
  | cons c t ih =>
    intro h hinf
    rw [strIndexOf] at h
    split at h
    · exact Option.noConfusion h
    · rename_i hp
      have ht : strIndexOf pat t = none := by
        cases hj : strIndexOf pat t with
        | none => rfl
        | some j => rw [hj] at h; exact Option.noConfusion h
      rcases List.infix_cons_iff.mp hinf with hpre | hinf2
      · exact hp (List.isPrefixOf_iff_prefix.mpr hpre)
      · exact ih ht hinf2

theorem strIndexOf_infix_some (pat hay : List Char) (h : pat <:+: hay) :
    ∃ i, strIndexOf pat hay = some i := by
  cases hi : strIndexOf pat hay with
  | none => exact absurd h (strIndexOf_none_no_occurrence pat hay hi)
  | some i => exact ⟨i, rfl⟩

/-- A prefix of a dropped tail is an infix of the whole. -/
theorem infix_of_prefix_drop (pat hay : List Char) (i : Nat) (h : pat <+: hay.drop i) :
    pat <:+: hay :=
  h.isInfix.trans (hay.drop_suffix i).isInfix

/-- C6: when the highlight text occurs verbatim in the combined text, the
locator's exact-match branch returns a span that slices exactly the
highlight text back out; and when neither an exact nor a
whitespace-normalized match exists, the locator returns `none` — the effect
silently does nothing and raises no error. -/
theorem claim6_locate_highlight (combinedText highlightText : List Char) :
    (highlightText <:+: combinedText →
      ∃ s e, locateHighlight combinedText highlightText = some (s, e) ∧
        sliceStr combinedText s e = highlightText) ∧
    (¬ highlightText <:+: combinedText →
      ¬ normalizeWhitespace highlightText <:+: normalizeWhitespace combinedText →
      locateHighlight combinedText highlightText = none) := by
  constructor
  · intro hinf
    obtain ⟨i, hi⟩ := strIndexOf_infix_some _ _ hinf
    refine ⟨i, i + highlightText.length, ?_, ?_⟩
    · unfold locateHighlight
      rw [hi]
    · have hpre := strIndexOf_some_starts _ _ _ hi
      unfold sliceStr
      rw [List.drop_take, Nat.add_sub_cancel_left]
      exact (List.prefix_iff_eq_take.mp hpre).symm
  · intro hnoexact hnonorm
    have h0 : strIndexOf highlightText combinedText = none := by
      cases hi : strIndexOf highlightText combinedText with
      | none => rfl
      | some i =>
        exact absurd (infix_of_prefix_drop _ _ _ (strIndexOf_some_starts _ _ _ hi)) hnoexact
    have h1 : strIndexOf (normalizeWhitespace highlightText)
        (normalizeWhitespace combinedText) = none := by
      cases hi : strIndexOf (normalizeWhitespace highlightText)
          (normalizeWhitespace combinedText) with
      | none => rfl
      | some i =>
        exact absurd (infix_of_prefix_drop _ _ _ (strIndexOf_some_starts _ _ _ hi)) hnonorm
    unfold locateHighlight
    simp only [h0, h1]

/-- Witness for C6: `"world"` is located exactly inside `"hello world"`, and
`"zzz"` (which matches neither exactly nor after whitespace normalization)
yields the silent no-op. -/
theorem claim6_locate_highlight_witness :
    (∃ s e, locateHighlight "hello world".toList "world".toList = some (s, e) ∧
      sliceStr "hello world".toList s e = "world".toList) ∧
    locateHighlight "abc".toList "zzz".toList = none :=
  ⟨(claim6_locate_highlight "hello world".toList "world".toList).1 (by decide),
   (claim6_locate_highlight "abc".toList "zzz".toList).2 (by decide) (by decide)⟩

/-! ### C1 and C2: subtree deletion -/

theorem list_eq_of_length_le_one {α : Type} (l : List α) (h : l.length ≤ 1)
    (a b : α) (ha : a ∈ l) (hb : b ∈ l) : a = b := by
  cases l with
  | nil => cases ha
  | cons x t =>
    cases t with
    | nil =>
      rw [List.mem_singleton] at ha hb
      rw [ha, hb]
    | cons y u => simp at h

/-- The deleted set is empty, or it is exactly the set of nodes
`deleteReach`-able from the root. -/
theorem deleteSubtree_fst_spec (db : Db) (conversationId rootNodeId : String) :
    (deleteNodeSubtreeRespectingJoins db conversationId rootNodeId).1 = [] ∨
    ∀ x, x ∈ (deleteNodeSubtreeRespectingJoins db conversationId rootNodeId).1 ↔
      deleteReach (convEdges db conversationId) rootNodeId x := by
  by_cases h1 : convNodes db conversationId = []
  · left
    simp [deleteNodeSubtreeRespectingJoins, h1]
  · by_cases h2 : rootNodeId ∉ (convNodes db conversationId).map fun n => n.id
    · left
      simp [deleteNodeSubtreeRespectingJoins, h1, h2]
    · by_cases h3 : deleteVisit (convEdges db conversationId) rootNodeId = []
      · left
        simp [deleteNodeSubtreeRespectingJoins, h1, h2, h3]
      · right
        intro x
        have hfst : (deleteNodeSubtreeRespectingJoins db conversationId rootNodeId).1 =
            deleteVisit (convEdges db conversationId) rootNodeId := by
          simp only [deleteNodeSubtreeRespectingJoins]
          rw [if_neg h1, if_neg h2, if_neg h3]
        rw [hfst]
        exact deleteVisit_mem_iff _ _ _

/-- C1 (join preservation): every node of the deleted set other than the
root has no incoming edge from outside the deleted set — a descendant that
remains reachable via an edge from a surviving node is never deleted. -/
theorem claim1_join_preservation (db : Db) (conversationId rootNodeId x : String)
    (hx : x ∈ (deleteNodeSubtreeRespectingJoins db conversationId rootNodeId).1)
    (hxr : x ≠ rootNodeId) (e : GraphEdge) (he : e ∈ db.edges)
    (hec : e.conversation_id = conversationId) (het : e.target = x) :
    e.source ∈ (deleteNodeSubtreeRespectingJoins db conversationId rootNodeId).1 := by
  rcases deleteSubtree_fst_spec db conversationId rootNodeId with hnil | hiff
  · rw [hnil] at hx
    cases hx
  · have hreach := (hiff x).mp hx
    rcases Relation.ReflTransGen.cases_tail hreach with heq | ⟨c, hc, hstep⟩
    · exact absurd heq hxr
    · have hcmem := (hiff c).mpr hc
      have heconv : e ∈ convEdges db conversationId :=
        List.mem_filter.mpr ⟨he, by simp [hec]⟩
      obtain ⟨e2, he2, he2t⟩ := List.mem_map.mp hstep.1
      have hbeq := List.of_mem_filter he2
      have he2src : e2.source = c := eq_of_beq hbeq
      have he2f : e2 ∈ (convEdges db conversationId).filter fun ed => ed.target == x :=
        List.mem_filter.mpr ⟨List.mem_of_mem_filter he2, by simp [he2t]⟩
      have hef : e ∈ (convEdges db conversationId).filter fun ed => ed.target == x :=
        List.mem_filter.mpr ⟨heconv, by simp [het]⟩
      have hlen : ((convEdges db conversationId).filter
          fun ed => ed.target == x).length ≤ 1 := by
        have h2 := hstep.2
        unfold incomingCount at h2
        exact h2
      have heq2 : e = e2 := list_eq_of_length_le_one _ hlen _ _ hef he2f
      rw [heq2, he2src]
      exact hcmem

/-- Witness for C1: deleting `C` in the chain also deletes `D`, whose single
incoming edge `e3` comes from `C`, itself inside the deleted set. -/
theorem claim1_join_preservation_witness :
    "D" ∈ (deleteNodeSubtreeRespectingJoins chainDb "c" "C").1 ∧
    (⟨"e3", "c", "C", "D", 3⟩ : GraphEdge).source ∈
      (deleteNodeSubtreeRespectingJoins chainDb "c" "C").1 :=
  ⟨by decide, claim1_join_preservation chainDb "c" "C" "D" (by decide) (by decide)
    ⟨"e3", "c", "C", "D", 3⟩ (by decide) (by decide) (by decide)⟩

/-- Counterexample to C2 as stated, on the diamond `R → A, R → B, A → C,
B → C`: deleting `R` deletes `R`, `A` and `B`; node `C` is a descendant of
`R` (via `d1` and `d3`) and every incoming edge of `C` has its source in the
deleted set, so `C` becomes unreachable from every surviving node — yet `C`
is not deleted.  The in-degree-1 rule is local and does not compute
reachability from survivors. -/
theorem claim2_counterexample :
    "C" ∉ (deleteNodeSubtreeRespectingJoins diamondDb "c" "R").1 ∧
    "R" ∈ (deleteNodeSubtreeRespectingJoins diamondDb "c" "R").1 ∧
    "A" ∈ (deleteNodeSubtreeRespectingJoins diamondDb "c" "R").1 ∧
    "B" ∈ (deleteNodeSubtreeRespectingJoins diamondDb "c" "R").1 ∧
    (∀ e ∈ diamondDb.edges, e.target = "C" → e.source ∈
      (deleteNodeSubtreeRespectingJoins diamondDb "c" "R").1) ∧
    (⟨"d1", "c", "R", "A", 1⟩ : GraphEdge) ∈ diamondDb.edges ∧
    (⟨"d3", "c", "A", "C", 3⟩ : GraphEdge) ∈ diamondDb.edges := by
  decide

/-- C2 (amended): when the root exists in the conversation, the deleted set
is exactly the root together with the descendants reachable from it along
edges whose child end has in-degree at most 1 in the pre-deletion graph; a
child with two or more incoming edges is left intact and not traversed, even
when all of its parents end up deleted. -/
theorem claim2_delete_characterization (db : Db) (conversationId rootNodeId : String)
    (hroot : rootNodeId ∈ (convNodes db conversationId).map fun n => n.id) (x : String) :
    x ∈ (deleteNodeSubtreeRespectingJoins db conversationId rootNodeId).1 ↔
      deleteReach (convEdges db conversationId) rootNodeId x := by
  have h1 : ¬ convNodes db conversationId = [] := by
    intro h
    rw [h] at hroot
    simp at hroot
  have h3 : ¬ deleteVisit (convEdges db conversationId) rootNodeId = [] :=
    List.ne_nil_of_mem ((deleteVisit_mem_iff _ _ _).mpr Relation.ReflTransGen.refl)
  have hfst : (deleteNodeSubtreeRespectingJoins db conversationId rootNodeId).1 =
      deleteVisit (convEdges db conversationId) rootNodeId := by
    simp only [deleteNodeSubtreeRespectingJoins]
    rw [if_neg h1, if_neg (not_not_intro hroot), if_neg h3]
  rw [hfst]
  exact deleteVisit_mem_iff _ _ _

/-- Witness for C2 (amended) on the diamond fixture. -/
theorem claim2_delete_characterization_witness :
    "A" ∈ (deleteNodeSubtreeRespectingJoins diamondDb "c" "R").1 ↔
      deleteReach (convEdges diamondDb "c") "R" "A" :=
  claim2_delete_characterization diamondDb "c" "R" (by decide) "A"

/-! ### C3: the ancestor resolver -/

theorem ancestorVisit_nil (edges : List GraphEdge) : ancestorVisit edges [] = [] := by
  simp [ancestorVisit, graphTraverseFuel]

theorem ancestorMessageIds_nil_of_seeds_nil (db : Db) (conversationId : String) :
    ancestorMessageIds db conversationId [] = [] := by
  rw [ancestorMessageIds, ancestorVisit_nil]
  rfl

theorem ancestorMessageIds_nil_of_nodes_nil (db : Db) (conversationId : String)
    (seeds : List String) (h : convNodes db conversationId = []) :
    ancestorMessageIds db conversationId seeds = [] := by
  rw [ancestorMessageIds]
  apply List.filterMap_eq_nil_iff.mpr
  intro nid _
  rw [h]
  rfl

theorem ancestorMessageIds_nil_of_visit_nil (db : Db) (conversationId : String)
    (seeds : List String) (h : ancestorVisit (convEdges db conversationId) seeds = []) :
    ancestorMessageIds db conversationId seeds = [] := by
  rw [ancestorMessageIds, h]
  rfl

theorem ancestorChronological_nil_of_msgIds_nil (db : Db) (conversationId : String)
    (seeds : List String) (h : ancestorMessageIds db conversationId seeds = []) :
    ancestorChronological db conversationId seeds = [] := by
  simp [ancestorChronological, h]

/-- `listMessagesForNodeAncestors` always equals the chronological list
truncated to its most recent `limit` entries (in the early-out branches the
chronological list is itself empty). -/
theorem listMessages_eq_truncate (db : Db) (conversationId : String)
    (seeds : List String) (limit : Nat) :
    listMessagesForNodeAncestors db conversationId seeds limit =
      if (ancestorChronological db conversationId seeds).length ≤ limit
        then ancestorChronological db conversationId seeds
        else (ancestorChronological db conversationId seeds).drop
          ((ancestorChronological db conversationId seeds).length - limit) := by
  unfold listMessagesForNodeAncestors
  by_cases h1 : seeds = []
  · subst h1
    rw [if_pos rfl,
      ancestorChronological_nil_of_msgIds_nil _ _ _ (ancestorMessageIds_nil_of_seeds_nil _ _)]
    simp
  · rw [if_neg h1]
    by_cases h2 : convNodes db conversationId = []
    · rw [if_pos h2,
        ancestorChronological_nil_of_msgIds_nil _ _ _
          (ancestorMessageIds_nil_of_nodes_nil _ _ _ h2)]
      simp
    · rw [if_neg h2]
      by_cases h3 : ancestorVisit (convEdges db conversationId) seeds = []
      · rw [if_pos h3,
          ancestorChronological_nil_of_msgIds_nil _ _ _
            (ancestorMessageIds_nil_of_visit_nil _ _ _ h3)]
        simp
      · rw [if_neg h3]
        by_cases h4 : ancestorMessageIds db conversationId seeds = []
        · rw [if_pos h4, ancestorChronological_nil_of_msgIds_nil _ _ _ h4]
          simp
        · rw [if_neg h4]

/-- Every message of the chronological list belongs, through a truthy
`message_id`, to a conversation node that is backward-reachable from one of
the seeds. -/
theorem mem_ancestorChronological (db : Db) (conversationId : String)
    (seeds : List String) (m : Message)
    (hm : m ∈ ancestorChronological db conversationId seeds) :
    ∃ n, n ∈ db.nodes ∧ n.conversation_id = conversationId ∧
      truthyStr n.message_id = some m.id ∧
      ∃ s ∈ seeds, ancestorReach (convEdges db conversationId) s n.id := by
  unfold ancestorChronological at hm
  rw [(List.perm_insertionSort msgLE _).mem_iff] at hm
  have hmf := List.mem_filter.mp hm
  have hpred := hmf.2
  rw [Bool.and_eq_true] at hpred
  have hid : m.id ∈ ancestorMessageIds db conversationId seeds :=
    of_decide_eq_true hpred.2
  rw [ancestorMessageIds, List.mem_filterMap] at hid
  obtain ⟨nid, hnid, hbind⟩ := hid
  rw [Option.bind_eq_some] at hbind
  obtain ⟨n, hfind, htru⟩ := hbind
  have hnmem : n ∈ (convNodes db conversationId).reverse :=
    List.mem_of_find?_eq_some hfind
  rw [List.mem_reverse] at hnmem
  have hb1 := List.find?_some hfind
  have hnid2 : n.id = nid := eq_of_beq hb1
  have hnodes := List.mem_of_mem_filter hnmem
  have hb2 := List.of_mem_filter hnmem
  have hconv : n.conversation_id = conversationId := eq_of_beq hb2
  obtain ⟨s, hs, hr⟩ := (ancestorVisit_mem_iff _ _ _).mp hnid
  refine ⟨n, hnodes, hconv, htru, s, hs, ?_⟩
  rw [hnid2]
  exact hr

/-- C3: the resolver returns only messages belonging to nodes backward
reachable (through the conversation's reverse adjacency) from the seeds,
sorted ascending by creation time, never more than `limit` of them; and
whenever more than `limit` ancestor messages exist, the result is exactly
the tail — the most recent `limit` entries — of the chronological list. -/
theorem claim3_ancestor_resolver (db : Db) (conversationId : String)
    (fromNodeIds : List String) (limit : Nat) :
    (∀ m ∈ listMessagesForNodeAncestors db conversationId fromNodeIds limit,
      ∃ n, n ∈ db.nodes ∧ n.conversation_id = conversationId ∧
        truthyStr n.message_id = some m.id ∧
        ∃ s ∈ fromNodeIds, ancestorReach (convEdges db conversationId) s n.id) ∧
    List.Sorted msgLE (listMessagesForNodeAncestors db conversationId fromNodeIds limit) ∧
    (listMessagesForNodeAncestors db conversationId fromNodeIds limit).length ≤ limit ∧
    (limit < (ancestorChronological db conversationId fromNodeIds).length →
      listMessagesForNodeAncestors db conversationId fromNodeIds limit =
        (ancestorChronological db conversationId fromNodeIds).drop
          ((ancestorChronological db conversationId fromNodeIds).length - limit)) := by
  have htr := listMessages_eq_truncate db conversationId fromNodeIds limit
  have hsorted : List.Sorted msgLE (ancestorChronological db conversationId fromNodeIds) :=
    List.sorted_insertionSort msgLE _
  refine ⟨?_, ?_, ?_, ?_⟩
  · intro m hm
    rw [htr] at hm
    have hmc : m ∈ ancestorChronological db conversationId fromNodeIds := by
      by_cases hl : (ancestorChronological db conversationId fromNodeIds).length ≤ limit
      · rw [if_pos hl] at hm
        exact hm
      · rw [if_neg hl] at hm
        exact List.drop_subset _ _ hm
    exact mem_ancestorChronological db conversationId fromNodeIds m hmc
  · rw [htr]
    by_cases hl : (ancestorChronological db conversationId fromNodeIds).length ≤ limit
    · rw [if_pos hl]
      exact hsorted
    · rw [if_neg hl]
      exact hsorted.sublist (List.drop_sublist _ _)
  · rw [htr]
    by_cases hl : (ancestorChronological db conversationId fromNodeIds).length ≤ limit
    · rw [if_pos hl]
      exact hl
    · rw [if_neg hl]
      rw [List.length_drop]
      omega
  · intro hlt
    rw [htr, if_neg (not_le.mpr hlt)]

/-- Witness for C3 at the chain fixture with seed `D` and limit 2: the
result is the most recent two messages, each belonging to an ancestor of
`D`. -/
theorem claim3_ancestor_resolver_witness :
    (⟨"mC", "c", "user", "and Y", 3⟩ : Message) ∈
      listMessagesForNodeAncestors chainDb "c" ["D"] 2 ∧
    ∃ n, n ∈ chainDb.nodes ∧ n.conversation_id = "c" ∧
      truthyStr n.message_id = some "mC" ∧
      ∃ s ∈ ["D"], ancestorReach (convEdges chainDb "c") s n.id :=
  ⟨by decide, (claim3_ancestor_resolver chainDb "c" ["D"] 2).1
    ⟨"mC", "c", "user", "and Y", 3⟩ (by decide)⟩

/-! ### C9: ancestor-resolver edge cases -/

/-- The resolver's output depends on the seed list only through the
membership of the collected message ids: two seed lists collecting the same
message-id set produce the same result. -/
theorem listMessages_congr (db : Db) (conversationId : String) (limit : Nat)
    (seeds1 seeds2 : List String)
    (h1 : ∀ mid, mid ∈ ancestorMessageIds db conversationId seeds1 ↔
      mid ∈ ancestorMessageIds db conversationId seeds2) :
    listMessagesForNodeAncestors db conversationId seeds1 limit =
      listMessagesForNodeAncestors db conversationId seeds2 limit := by
  have hchron : ancestorChronological db conversationId seeds1 =
      ancestorChronological db conversationId seeds2 := by
    unfold ancestorChronological
    congr 1
    apply List.filter_congr
    intro m _
    have hd : decide (m.id ∈ ancestorMessageIds db conversationId seeds1) =
        decide (m.id ∈ ancestorMessageIds db conversationId seeds2) :=
      decide_eq_decide.mpr (h1 m.id)
    rw [hd]
  rw [listMessages_eq_truncate, listMessages_eq_truncate, hchron]

theorem ancestorReach_of_parentless (edges : List GraphEdge) (s x : String)
    (h : parentsOf edges s = []) (hr : ancestorReach edges s x) : x = s := by
  rcases Relation.ReflTransGen.cases_head hr with heq | ⟨c, hc, _⟩
  · exact heq.symm
  · rw [h] at hc
    cases hc

theorem parentsOf_eq_nil_of_not_target (edges : List GraphEdge) (s : String)
    (h : ∀ e ∈ edges, ¬ e.target = s) : parentsOf edges s = [] := by
  have hf : (edges.filter fun e => e.target == s) = [] :=
    List.filter_eq_nil_iff.mpr (by intro e he; simpa using h e he)
  rw [parentsOf, hf]
  rfl

/-- Membership in the collected message ids, phrased through backward
reachability. -/
theorem mem_ancestorMessageIds_iff (db : Db) (conversationId : String)
    (seeds : List String) (mid : String) :
    mid ∈ ancestorMessageIds db conversationId seeds ↔
      ∃ nid, (∃ s ∈ seeds, ancestorReach (convEdges db conversationId) s nid) ∧
        ((nodeById (convNodes db conversationId) nid).bind
          fun n => truthyStr n.message_id) = some mid := by
  rw [ancestorMessageIds, List.mem_filterMap]
  constructor
  · rintro ⟨nid, hnid, hf⟩
    exact ⟨nid, (ancestorVisit_mem_iff _ _ _).mp hnid, hf⟩
  · rintro ⟨nid, hreach, hf⟩
    exact ⟨nid, (ancestorVisit_mem_iff _ _ _).mpr hreach, hf⟩

/-- C9: the resolver returns `[]` for an empty seed set; a seed id absent
from a well-formed conversation graph (edges relate existing nodes) is
treated as a seed with no ancestors and contributes no messages — the call
is total, so no error is raised; and the result is stable under duplicate
seeds (any two seed lists with the same underlying set agree) and under
adding a seed that is an ancestor of another seed. -/
theorem claim9_ancestor_edge_cases (db : Db) (conversationId : String) (limit : Nat) :
    (listMessagesForNodeAncestors db conversationId [] limit = []) ∧
    (∀ s rest, (∀ e ∈ convEdges db conversationId,
        e.source ∈ (convNodes db conversationId).map (fun n => n.id) ∧
        e.target ∈ (convNodes db conversationId).map (fun n => n.id)) →
      s ∉ (convNodes db conversationId).map (fun n => n.id) →
      listMessagesForNodeAncestors db conversationId (s :: rest) limit =
        listMessagesForNodeAncestors db conversationId rest limit) ∧
    (∀ seeds1 seeds2 : List String, seeds1.toFinset = seeds2.toFinset →
      listMessagesForNodeAncestors db conversationId seeds1 limit =
        listMessagesForNodeAncestors db conversationId seeds2 limit) ∧
    (∀ a seeds, (∃ s ∈ seeds, ancestorReach (convEdges db conversationId) s a) →
      listMessagesForNodeAncestors db conversationId (a :: seeds) limit =
        listMessagesForNodeAncestors db conversationId seeds limit) := by
  refine ⟨?_, ?_, ?_, ?_⟩
  · simp [listMessagesForNodeAncestors]
  · intro s rest hWF hs
    have hspar : parentsOf (convEdges db conversationId) s = [] := by
      apply parentsOf_eq_nil_of_not_target
      intro e he hts
      apply hs
      rw [← hts]
      exact (hWF e he).2
    have hnone : ((nodeById (convNodes db conversationId) s).bind
        fun n => truthyStr n.message_id) = none := by
      have hfind : nodeById (convNodes db conversationId) s = none := by
        rw [nodeById]
        apply List.find?_eq_none.mpr
        intro n hn hbeq
        apply hs
        rw [List.mem_reverse] at hn
        have hid : n.id = s := eq_of_beq hbeq
        exact List.mem_map.mpr ⟨n, hn, hid⟩
      rw [hfind]
      rfl
    apply listMessages_congr
    intro mid
    rw [mem_ancestorMessageIds_iff, mem_ancestorMessageIds_iff]
    constructor
    · rintro ⟨nid, ⟨seed, hseed, hreach⟩, hf⟩
      rcases List.mem_cons.mp hseed with rfl | hseed2
      · have hnid : nid = seed := ancestorReach_of_parentless _ _ _ hspar hreach
        subst hnid
        rw [hnone] at hf
        exact Option.noConfusion hf
      · exact ⟨nid, ⟨seed, hseed2, hreach⟩, hf⟩
    · rintro ⟨nid, ⟨seed, hseed, hreach⟩, hf⟩
      exact ⟨nid, ⟨seed, List.mem_cons_of_mem _ hseed, hreach⟩, hf⟩
  · intro seeds1 seeds2 hfin
    apply listMessages_congr
    intro mid
    rw [mem_ancestorMessageIds_iff, mem_ancestorMessageIds_iff]
    constructor
    · rintro ⟨nid, ⟨seed, hseed, hreach⟩, hf⟩
      refine ⟨nid, ⟨seed, ?_, hreach⟩, hf⟩
      rw [← List.mem_toFinset, ← hfin, List.mem_toFinset]
      exact hseed
    · rintro ⟨nid, ⟨seed, hseed, hreach⟩, hf⟩
      refine ⟨nid, ⟨seed, ?_, hreach⟩, hf⟩
      rw [← List.mem_toFinset, hfin, List.mem_toFinset]
      exact hseed
  · rintro a seeds ⟨s0, hs0, hr0⟩
    apply listMessages_congr
    intro mid
    rw [mem_ancestorMessageIds_iff, mem_ancestorMessageIds_iff]
    constructor
    · rintro ⟨nid, ⟨seed, hseed, hreach⟩, hf⟩
      rcases List.mem_cons.mp hseed with rfl | hseed2
      · exact ⟨nid, ⟨s0, hs0, Relation.ReflTransGen.trans hr0 hreach⟩, hf⟩
      · exact ⟨nid, ⟨seed, hseed2, hreach⟩, hf⟩
    · rintro ⟨nid, ⟨seed, hseed, hreach⟩, hf⟩
      exact ⟨nid, ⟨seed, List.mem_cons_of_mem _ hseed, hreach⟩, hf⟩

/-- Witness for C9: appending the absent seed `"Z"` to seed `D` on the chain
fixture (whose edges are well-formed) leaves the resolver's result
unchanged. -/
theorem claim9_ancestor_edge_cases_witness :
    listMessagesForNodeAncestors chainDb "c" ["Z", "D"] 20 =
      listMessagesForNodeAncestors chainDb "c" ["D"] 20 :=
  (claim9_ancestor_edge_cases chainDb "c" 20).2.1 "Z" ["D"] (by decide) (by decide)
